import Mathlib

/-!
Verification of the Identity Resolution & Price-History Aggregation Engine
of the price-tracker repository, as implemented in `src/backend.spec`
(functions `getProductIdentityKey`, the dedup loop of `handleSearchPreview`,
`handleVariantSelected` and `fetchGroupPriceHistory`).

All definitions below are shallow embeddings of the JavaScript source:
strings are Lean `String`s, JS string operations (`toLowerCase`, `trim`,
`split`, regular-expression matching) are modelled character-by-character
on `List Char` for the ASCII fragment actually exercised by the code, and
JS `Set` objects are modelled as first-occurrence-deduplicated lists.
Prices are rationals (`ℚ`); the one place the source divides
(`similarity = intersection.size / Math.max(...)`) is modelled by rational
division, where the JS result `NaN` for `0/0` and Lean's `0/0 = 0` agree
on the only observable fact, namely that the `>= 0.4` test fails.
-/

/-! ## Basic JS string modelling -/

/-- The whitespace class of the JS regular-expression escape `\s`
(ASCII fragment). -/
def isJsSpace (c : Char) : Bool :=
  c = ' ' || c = '\t' || c = '\n' || c = '\r' || c = '\x0b' || c = '\x0c'

/-- `String.prototype.toLowerCase` on one character (ASCII fragment:
only `A`–`Z` are changed, all other characters are returned unchanged). -/
def jsToLowerChar (c : Char) : Char :=
  if c = 'A' then 'a' else if c = 'B' then 'b' else if c = 'C' then 'c'
  else if c = 'D' then 'd' else if c = 'E' then 'e' else if c = 'F' then 'f'
  else if c = 'G' then 'g' else if c = 'H' then 'h' else if c = 'I' then 'i'
  else if c = 'J' then 'j' else if c = 'K' then 'k' else if c = 'L' then 'l'
  else if c = 'M' then 'm' else if c = 'N' then 'n' else if c = 'O' then 'o'
  else if c = 'P' then 'p' else if c = 'Q' then 'q' else if c = 'R' then 'r'
  else if c = 'S' then 's' else if c = 'T' then 't' else if c = 'U' then 'u'
  else if c = 'V' then 'v' else if c = 'W' then 'w' else if c = 'X' then 'x'
  else if c = 'Y' then 'y' else if c = 'Z' then 'z' else c

/-- `toLowerCase` on a character list. -/
def jsToLowerList (l : List Char) : List Char := l.map jsToLowerChar

/-- `toLowerCase` on a string. -/
def jsToLowerStr (s : String) : String := ⟨jsToLowerList s.data⟩

/-- `String.prototype.trim` on a character list (strips `\s` from both
ends). -/
def jsTrimList (l : List Char) : List Char :=
  ((l.dropWhile isJsSpace).reverse.dropWhile isJsSpace).reverse

/-- JS digit test (the regular-expression class `\d`). -/
def isDigitChar (c : Char) : Bool := '0' ≤ c && c ≤ '9'

/-- `String.prototype.split` against a one-or-more character-class
regular expression such as `/[\s-]+/`: maximal runs of separator
characters delimit the fields, and leading/trailing separator runs
produce empty fields, exactly as in JS. -/
def jsSplit (p : Char → Bool) : List Char → List (List Char)
  | [] => [[]]
  | c :: cs =>
    if p c then
      if ((cs.head?).map p).getD false then jsSplit p cs
      else [] :: jsSplit p cs
    else
      (c :: (jsSplit p cs).headD []) :: (jsSplit p cs).tail

/-- Tokenise a string with a separator class, producing `String` tokens. -/
def splitTokens (p : Char → Bool) (s : String) : List String :=
  (jsSplit p s.data).map (fun cs => ⟨cs⟩)

/-- `Array.prototype.join(sep)` over strings viewed as char lists. -/
def joinCharLists (sep : Char) : List (List Char) → List Char
  | [] => []
  | [x] => x
  | x :: y :: rest => x ++ sep :: joinCharLists sep (y :: rest)

/-- `Array.prototype.join(sep)` over strings. -/
def joinWith (sep : Char) (l : List String) : String :=
  ⟨joinCharLists sep (l.map String.data)⟩

/-! ### A kernel-computable lexicographic string order

JS compares strings (`<`, `Array.prototype.sort()`'s default comparator,
`localeCompare` on the plain ASCII dates used here) code unit by code
unit; for the ASCII strings this repository manipulates this is plain
lexicographic order on the characters. -/

/-- Strict lexicographic order on char lists, by code point. -/
def lexLt : List Char → List Char → Bool
  | [], [] => false
  | [], _ :: _ => true
  | _ :: _, [] => false
  | a :: as, b :: bs =>
    if a.toNat < b.toNat then true
    else if b.toNat < a.toNat then false
    else lexLt as bs

/-- Strict string order (the JS `<` on strings). -/
def strLt (a b : String) : Bool := lexLt a.data b.data

/-- Non-strict string order. -/
def strLe (a b : String) : Bool := !(strLt b a)

/-- The ordering relation used to sort (Prop form of `strLe`). -/
def StrLeP (a b : String) : Prop := strLe a b = true

/-- The strict ordering relation (Prop form of `strLt`). -/
def StrLtP (a b : String) : Prop := strLt a b = true

instance : DecidableRel StrLeP := fun a b => inferInstanceAs (Decidable (_ = true))

instance : DecidableRel StrLtP := fun a b => inferInstanceAs (Decidable (_ = true))

/-- Sorting a list of strings, as JS `Array.prototype.sort()` does on the
(duplicate-free or value-identical) string arrays of this code base. -/
def sortStrings (l : List String) : List String := List.insertionSort StrLeP l

/-! ## First-occurrence deduplication

The dedup loop of `handleSearchPreview` keeps the first listing for each
key using a `Set` named `seen`; JS `Set`s also give the insertion-order
first-occurrence semantics used by `extractKeyWords`/`extractTierWords`. -/

/-- The `seen`-set loop: keep each element whose key has not occurred
before (`seen` holds the keys already encountered). -/
def keepFirsts {α : Type} (key : α → String) : List α → List String → List α
  | [], _ => []
  | x :: xs, seen =>
    if seen.contains (key x) then keepFirsts key xs seen
    else x :: keepFirsts key xs (key x :: seen)

/-- `new Set(array)` read back as an array: first-occurrence dedup. -/
def dedupFirst (l : List String) : List String := keepFirsts id l []

/-! ## Data model -/

/-- A raw listing as handed to the core (`{retailer, name, brand, model,
price, url}`); a missing `model` is the empty string (JS falsy). -/
structure Listing where
  retailer : String
  name : String
  brand : String
  model : String
  price : ℚ
  url : String
deriving DecidableEq

/-! ## Identity Resolver (`getProductIdentityKey` and the dedup loop) -/

/-- `TIER_WORDS` of `handleSearchPreview` (identity-key derivation). -/
def TIER_WORDS_ID : List String :=
  ["pro", "max", "plus", "ultra", "mini", "lite", "se", "air"]

/-- `COLOR_WORDS` of `handleSearchPreview`. -/
def COLOR_WORDS : List String :=
  ["black", "white", "silver", "gold", "grey", "gray", "blue", "red",
   "green", "pink", "purple", "midnight", "starlight", "titanium",
   "graphite", "space"]

/-- The stop-word list of the core-word filter. -/
def STOP_WORDS_ID : List String :=
  ["the", "and", "with", "for", "in", "new", "nz", "wifi", "wi-fi"]

/-- Separator class of the identity-key tokenisation `/[\s\-\/,]+/`. -/
def isSepId (c : Char) : Bool := isJsSpace c || c = '-' || c = '/' || c = ','

/-- One attempt of the storage regular expression `/(\d+\s*[gt]b)/i` at
the start of the list: a maximal digit run, a maximal `\s` run, then
`g` or `t` followed by `b` (the input is already lower-cased, but the
`i` flag is modelled anyway). -/
def digitsOf (l : List Char) : List Char := l.takeWhile isDigitChar

def spacesAfter (l : List Char) : List Char :=
  (l.drop (digitsOf l).length).takeWhile isJsSpace

def tailAfter (l : List Char) : List Char :=
  (l.drop (digitsOf l).length).drop (spacesAfter l).length

def storageAt (l : List Char) : Option (List Char) :=
  if digitsOf l = [] then none
  else
    match tailAfter l with
    | u :: v :: _ =>
      if (u = 'g' || u = 't' || u = 'G' || u = 'T') && (v = 'b' || v = 'B')
      then some (digitsOf l ++ spacesAfter l ++ [u, v]) else none
    | _ => none

/-- `name.match(/(\d+\s*[gt]b)/i)`: leftmost match (the regex engine
tries each start position left to right; no backtracking can rescue a
failed position, since fewer digits put a digit where `[gt]` must be). -/
def findStorage : List Char → Option (List Char)
  | [] => none
  | c :: cs =>
    match storageAt (c :: cs) with
    | some m => some m
    | none => findStorage cs

/-- The anchored storage-token test `/^\d+\s*[gt]b$/i` used to exclude
the storage token from the core words. -/
def isStorageToken (w : String) : Bool :=
  if digitsOf w.data = [] then false
  else
    match tailAfter w.data with
    | [u, v] => (u = 'g' || u = 't' || u = 'G' || u = 'T') && (v = 'b' || v = 'B')
    | _ => false

/-- The token list of the identity-key derivation:
`name.split(/[\s\-\/,]+/)` on the lower-cased name. -/
def idTokens (name : String) : List String :=
  splitTokens isSepId (jsToLowerStr name)

/-- The storage part of the identity key:
`storageMatch ? storageMatch[1].replace(/\s/g, '') : ''`. -/
def storagePartOf (name : String) : String :=
  match findStorage (jsToLowerStr name).data with
  | some m => ⟨m.filter (fun c => !(isJsSpace c))⟩
  | none => ""

/-- The tier tokens kept by the identity-key derivation:
`words.filter(w => TIER_WORDS.includes(w))`. -/
def idTierTokens (name : String) : List String :=
  (idTokens name).filter (fun w => decide (w ∈ TIER_WORDS_ID))

/-- The tier part of the identity key: tier tokens sorted and joined
with `-`. -/
def tierPartOf (name : String) : String :=
  joinWith '-' (sortStrings (idTierTokens name))

/-- The core-word filter of the identity-key derivation. -/
def isCoreWord (w : String) : Bool :=
  decide (1 < w.length ∧ w ∉ COLOR_WORDS ∧ w ∉ TIER_WORDS_ID ∧
    w ∉ STOP_WORDS_ID ∧ isStorageToken w = false)

/-- The core part of the identity key: the first four core words joined
with `-`. -/
def corePartOf (name : String) : String :=
  joinWith '-' (((idTokens name).filter isCoreWord).take 4)

/-- `getProductIdentityKey` of `handleSearchPreview`: the model code
lower-cased and trimmed when present, otherwise the
`core|tier|storage` key derived from the name (empty parts omitted). -/
def getProductIdentityKey (p : Listing) : String :=
  if jsTrimList p.model.data ≠ [] then ⟨jsTrimList (jsToLowerList p.model.data)⟩
  else joinWith '|'
    ([corePartOf p.name, tierPartOf p.name, storagePartOf p.name].filter (· ≠ ""))

/-- The dedup loop of `handleSearchPreview` (`uniqueProducts` / `seen`):
spec name `resolve`. -/
def resolveListings (l : List Listing) : List Listing :=
  keepFirsts getProductIdentityKey l []

example : jsSplit isSepId "a--b c".data = ["a".data, "b".data, "c".data] := by decide
example : jsSplit isSepId "-a-".data = [[], "a".data, []] := by decide
example : jsSplit isSepId "".data = [[]] := by decide
example : storagePartOf "iPhone 17 256GB Black" = "256gb" := by decide
example : storagePartOf "iPad 1 TB WiFi" = "1tb" := by decide
example : tierPartOf "Galaxy S25 Ultra Pro" = "pro-ultra" := by decide
example : corePartOf "iPhone 17 Pro 256GB Black" = "iphone-17" := by decide
example :
    getProductIdentityKey ⟨"A", "iPhone 17 Pro 256GB Black", "", "", 0, ""⟩ =
    "iphone-17|pro|256gb" := by decide
example : getProductIdentityKey ⟨"A", "Widget", "", " ABC-12 ", 0, ""⟩ = "abc-12" := by decide
example : getProductIdentityKey ⟨"A", "", "", "", 0, ""⟩ = "" := by decide

/-! ## Retailer Matcher (`handleVariantSelected`) -/

/-- `TIER_WORDS` of `handleVariantSelected` (strategy-2 fuzzy match);
note it extends the identity-key vocabulary with `standard`/`basic`. -/
def TIER_WORDS_S2 : List String :=
  ["pro", "max", "plus", "ultra", "mini", "lite", "se", "air", "standard", "basic"]

/-- The stop-word list of `extractKeyWords`. -/
def STOP_WORDS_S2 : List String := ["the", "and", "with", "for", "in"]

/-- Separator class of the fuzzy-match tokenisation `/[\s-]+/`. -/
def isSepS2 (c : Char) : Bool := isJsSpace c || c = '-'

/-- `name.replace(/[()]/g, '')`. -/
def stripParens (s : String) : String :=
  ⟨s.data.filter (fun c => !(c = '(' || c = ')'))⟩

/-- `extractKeyWords` of `handleVariantSelected`: lower-case, strip
parentheses, split on `/[\s-]+/`, drop empty fields and stop words,
collect into a `Set` (first-occurrence dedup). -/
def extractKeyWords (name : String) : List String :=
  dedupFirst ((splitTokens isSepS2 (stripParens (jsToLowerStr name))).filter
    (fun w => decide (0 < w.length ∧ w ∉ STOP_WORDS_S2)))

/-- `extractTierWords` of `handleVariantSelected`: lower-case, split on
`/[\s-]+/`, keep the tier-vocabulary words, collect into a `Set`. -/
def extractTierWords (name : String) : List String :=
  dedupFirst ((splitTokens isSepS2 (jsToLowerStr name)).filter
    (fun w => decide (w ∈ TIER_WORDS_S2)))

/-- `Array.from(tierSet).sort().join(',')`, the comparison form of a
tier-word set. -/
def tierStrOf (name : String) : String :=
  joinWith ',' (sortStrings (extractTierWords name))

/-- `[...variantKeyWords].filter(w => !productKeyWords.has(w))`. -/
def missingWords (vn pn : String) : List String :=
  (extractKeyWords vn).filter (fun w => decide (w ∉ extractKeyWords pn))

/-- `missingWords.filter(w => w.length > 3 || /\d/.test(w))`. -/
def significantMissing (vn pn : String) : List String :=
  (missingWords vn pn).filter
    (fun w => decide (3 < w.length ∨ w.data.any isDigitChar = true))

/-- `[...variantKeyWords].filter(x => productKeyWords.has(x))`. -/
def interWords (vn pn : String) : List String :=
  (extractKeyWords vn).filter (fun w => decide (w ∈ extractKeyWords pn))

/-- `intersection.size / Math.max(variantKeyWords.size, productKeyWords.size)`. -/
def similarity (vn pn : String) : ℚ :=
  ((interWords vn pn).length : ℚ) /
    ((max (extractKeyWords vn).length (extractKeyWords pn).length : ℕ) : ℚ)

/-- The strategy-2 per-candidate predicate of `handleVariantSelected`:
reject on a tier-string mismatch, then on a significant missing keyword
(the code checks `missingWords.length > 0` first, but a non-empty
significant subset forces the missing set non-empty, so the two guards
collapse to one), then accept exactly when the similarity reaches 0.4. -/
def fuzzyAccept (v p : Listing) : Bool :=
  if tierStrOf v.name ≠ tierStrOf p.name then false
  else if significantMissing v.name p.name ≠ [] then false
  else decide (similarity v.name p.name ≥ 2/5)

/-- Strategy 1 of `handleVariantSelected`: when the chosen variant
carries a model code, every listing with a case-insensitively equal
model code (the comparison itself is not trimmed); otherwise nothing. -/
def strategyOne (v : Listing) (all : List Listing) : List Listing :=
  if jsTrimList v.model.data = [] then []
  else all.filter (fun p =>
    decide (jsTrimList p.model.data ≠ [] ∧ jsToLowerStr p.model = jsToLowerStr v.model))

/-- The two-strategy matcher of `handleVariantSelected` (spec name
`match`): strategy 2 (fuzzy name match) runs exactly when strategy 1
produced nothing. -/
def matchRetailers (v : Listing) (all : List Listing) : List Listing :=
  if strategyOne v all = [] then all.filter (fun p => fuzzyAccept v p)
  else strategyOne v all

/-! ## Price History Merger (`fetchGroupPriceHistory`) -/

/-- `entry.timestamp.split('T')[0].split(' ')[0]`: the calendar-date
component of a timestamp. -/
def dateOf (ts : String) : String :=
  ⟨(ts.data.takeWhile (fun c => !(c = 'T'))).takeWhile (fun c => !(c = ' '))⟩

/-- The per-retailer history map handed to the merge: one entry per
product of the group, `(retailer, [(timestamp, price)])`, in the order
of `comparisonData.products`. -/
def Histories : Type := List (String × List (String × ℚ))

/-- All `dateMap[date][retailer] = entry.price` assignments, in
execution order, as `(date, retailer, price)` triples. -/
def writesOf (hs : Histories) : List (String × String × ℚ) :=
  List.flatMap hs (fun rh => rh.2.map (fun e => (dateOf e.1, rh.1, e.2)))

/-- The assignments that hit one `(date, retailer)` cell. -/
def writesFor (hs : Histories) (d r : String) : List (String × String × ℚ) :=
  (writesOf hs).filter (fun w => decide (w.1 = d ∧ w.2.1 = r))

/-- The value of a `dateMap` cell after all placements: the last
assignment wins. -/
def placedCell (hs : Histories) (d r : String) : Option ℚ :=
  (writesFor hs d r).getLast?.map (fun w => w.2.2)

/-- The keys of `dateMap` in insertion order (one per distinct date). -/
def dateKeys (hs : Histories) : List String :=
  dedupFirst ((writesOf hs).map (fun w => w.1))

/-- `Object.values(dateMap).sort((a, b) => a.date.localeCompare(b.date))`,
identified by the row dates: the distinct dates in ascending order. -/
def sortedDates (hs : Histories) : List String :=
  List.insertionSort StrLeP (dateKeys hs)

/-- The forward-fill loop of `fetchGroupPriceHistory`: rows are scanned
in ascending date order; a retailer's observed cell updates `lastKnown`,
a missing cell is filled from `lastKnown` when one exists. A row is
`(date, cell function)`; a retailer outside the group's retailer list is
left at its placed value (the loop never touches it). -/
def cellOr (o : Option ℚ) (fb : Option ℚ) : Option ℚ :=
  match o with
  | some q => some q
  | none => fb

def fillLoop (rs : List String) (placed : String → String → Option ℚ) :
    List String → (String → Option ℚ) → List (String × (String → Option ℚ))
  | [], _ => []
  | d :: ds, lk =>
    (d, fun r => if rs.contains r then cellOr (placed d r) (lk r)
        else placed d r) ::
    fillLoop rs placed ds
      (fun r => if rs.contains r then cellOr (placed d r) (lk r) else lk r)

/-- The whole merge of `fetchGroupPriceHistory` (spec name `merge`):
place every observation into the date-keyed table, sort the rows by
date, forward-fill missing cells from strictly earlier observations. -/
def mergeHistories (hs : Histories) : List (String × (String → Option ℚ)) :=
  fillLoop (hs.map (fun rh => rh.1)) (placedCell hs) (sortedDates hs) (fun _ => none)

example : dateOf "2024-01-05T10:00:00" = "2024-01-05" := by decide
example : extractKeyWords "iPhone 17 Pro (Black)" = ["iphone", "17", "pro", "black"] := by
  decide
example : tierStrOf "Galaxy Ultra Pro" = "pro,ultra" := by decide
example : tierStrOf "Galaxy Standard" = "standard" := by decide
example : idTierTokens "Galaxy Standard" = [] := by decide
example :
    matchRetailers ⟨"A", "Widget", "", "M1", 10, ""⟩
      [⟨"A", "Widget", "", "M1", 10, ""⟩, ⟨"B", "Widget X", "", "m1 ", 12, ""⟩,
       ⟨"C", "Other", "", "M2", 9, ""⟩] =
      [⟨"A", "Widget", "", "M1", 10, ""⟩] := by decide

/-! ## Order lemmas for the lexicographic string order -/

theorem lexLt_asymm : ∀ a b : List Char, lexLt a b = true → lexLt b a = false := by
  intro a
  induction a with
  | nil => intro b h; cases b <;> simp_all [lexLt]
  | cons x xs ih =>
    intro b h
    cases b with
    | nil => simp_all [lexLt]
    | cons y ys =>
      simp only [lexLt] at h ⊢
      by_cases h1 : x.toNat < y.toNat
      · have h2 : ¬ y.toNat < x.toNat := by omega
        simp [h1, h2]
      · by_cases h2 : y.toNat < x.toNat
        · simp [h1, h2] at h
        · simp only [h1, h2, if_neg, if_false] at h ⊢
          simp [ih ys h]

theorem lexLt_trans :
    ∀ a b c : List Char, lexLt a b = true → lexLt b c = true → lexLt a c = true := by
  intro a
  induction a with
  | nil =>
    intro b c hab hbc
    cases b <;> cases c <;> simp_all [lexLt]
  | cons x xs ih =>
    intro b c hab hbc
    cases b with
    | nil => simp_all [lexLt]
    | cons y ys =>
      cases c with
      | nil => simp_all [lexLt]
      | cons z zs =>
        simp only [lexLt] at hab hbc ⊢
        by_cases h1 : x.toNat < y.toNat <;> by_cases h2 : y.toNat < z.toNat
        · have : x.toNat < z.toNat := by omega
          simp [this]
        · simp only [h2, if_false] at hbc
          by_cases h3 : z.toNat < y.toNat
          · simp [h3] at hbc
          · have : x.toNat < z.toNat := by omega
            simp [this]
        · simp only [h1, if_false] at hab
          by_cases h3 : y.toNat < x.toNat
          · simp [h3] at hab
          · have : x.toNat < z.toNat := by omega
            simp [this]
        · simp only [h1, h2, if_false] at hab hbc
          by_cases h3 : y.toNat < x.toNat
          · simp [h3] at hab
          · by_cases h4 : z.toNat < y.toNat
            · simp [h4] at hbc
            · have e1 : ¬ x.toNat < z.toNat := by omega
              have e2 : ¬ z.toNat < x.toNat := by omega
              simp only [e1, e2, if_false]
              simp only [h3, if_false] at hab
              simp only [h4, if_false] at hbc
              exact ih ys zs hab hbc

theorem lexLt_eq_of_not :
    ∀ a b : List Char, lexLt a b = false → lexLt b a = false → a = b := by
  intro a
  induction a with
  | nil => intro b h1 _; cases b <;> simp_all [lexLt]
  | cons x xs ih =>
    intro b h1 h2
    cases b with
    | nil => simp_all [lexLt]
    | cons y ys =>
      simp only [lexLt] at h1 h2
      by_cases hx : x.toNat < y.toNat
      · simp [hx] at h1
      · by_cases hy : y.toNat < x.toNat
        · simp [hy] at h2
        · simp only [hx, hy, if_false] at h1 h2
          have hxy : x = y := Char.eq_of_val_eq (UInt32.ext (by
            simp only [Char.toNat] at hx hy
            omega))
          rw [hxy, ih ys h1 h2]

instance : IsTotal String StrLeP := by
  constructor
  intro a b
  simp only [StrLeP, strLe, Bool.not_eq_true']
  rcases h : strLt b a with _ | _
  · left; rfl
  · right
    simp only [strLt] at h ⊢
    exact lexLt_asymm _ _ h

instance : IsTrans String StrLeP := by
  constructor
  intro a b c hab hbc
  simp only [StrLeP, strLe, Bool.not_eq_true', strLt] at hab hbc ⊢
  rcases h : lexLt c.data a.data with _ | _
  · rfl
  · exfalso
    rcases h2 : lexLt a.data b.data with _ | _
    · have := lexLt_eq_of_not _ _ h2 hab
      rw [this] at h
      rw [h] at hbc
      cases hbc
    · have := lexLt_trans _ _ _ h h2
      rw [this] at hbc
      cases hbc

theorem strLtP_of_leP_ne {a b : String} (h : StrLeP a b) (hne : a ≠ b) : StrLtP a b := by
  simp only [StrLeP, strLe, Bool.not_eq_true', strLt] at h
  simp only [StrLtP, strLt]
  rcases h2 : lexLt a.data b.data with _ | _
  · exfalso
    apply hne
    have := lexLt_eq_of_not _ _ h2 h
    cases a; cases b; simp_all
  · rfl

theorem strLtP_irrefl (a : String) : ¬ StrLtP a a := by
  simp only [StrLtP, strLt]
  intro h
  have := lexLt_asymm _ _ h
  simp_all

theorem strLtP_asymm {a b : String} (h : StrLtP a b) : ¬ StrLtP b a := by
  simp only [StrLtP, strLt] at h ⊢
  simp [lexLt_asymm _ _ h]

theorem strLtP_trans {a b c : String} (h1 : StrLtP a b) (h2 : StrLtP b c) : StrLtP a c :=
  lexLt_trans _ _ _ h1 h2

theorem sortStrings_sorted (l : List String) : List.Sorted StrLeP (sortStrings l) :=
  List.sorted_insertionSort _ l

theorem sortStrings_perm (l : List String) : List.Perm (sortStrings l) l :=
  List.perm_insertionSort _ l

theorem sortStrings_pairwise_lt {l : List String} (h : l.Nodup) :
    List.Pairwise StrLtP (sortStrings l) := by
  have hs : List.Pairwise StrLeP (sortStrings l) := sortStrings_sorted l
  have hn : (sortStrings l).Nodup := (sortStrings_perm l).nodup_iff.mpr h
  exact (List.Pairwise.and hs hn).imp (fun hab => strLtP_of_leP_ne hab.1 hab.2)

/-! ## Lemmas about the first-occurrence dedup -/

theorem keepFirsts_sublist {α : Type} (key : α → String) :
    ∀ (l : List α) (seen : List String), (keepFirsts key l seen).Sublist l := by
  intro l
  induction l with
  | nil => intro seen; simp [keepFirsts]
  | cons x xs ih =>
    intro seen
    simp only [keepFirsts]
    by_cases h : seen.contains (key x) = true
    · simp only [h, if_true]
      exact (ih seen).trans (List.sublist_cons_self x xs)
    · simp only [h, if_false]
      exact (ih (key x :: seen)).cons₂ x


theorem keepFirsts_first {α : Type} (key : α → String) :
    ∀ (l : List α) (seen : List String) (v : α), v ∈ keepFirsts key l seen →
      ∃ pre post, l = pre ++ v :: post ∧ seen.contains (key v) = false ∧
        ∀ u ∈ pre, key u ≠ key v := by
  intro l
  induction l with
  | nil => intro seen v hv; simp [keepFirsts] at hv
  | cons x xs ih =>
    intro seen v hv
    simp only [keepFirsts] at hv
    by_cases h : seen.contains (key x) = true
    · rw [if_pos h] at hv
      obtain ⟨pre, post, he, hs, hpre⟩ := ih seen v hv
      refine ⟨x :: pre, post, by rw [he, List.cons_append], hs, ?_⟩
      intro u hu
      rcases List.mem_cons.mp hu with rfl | hu2
      · intro hk
        rw [← hk] at hs
        rw [h] at hs
        cases hs
      · exact hpre u hu2
    · rw [if_neg h] at hv
      rcases List.mem_cons.mp hv with rfl | hv2
      · exact ⟨[], xs, rfl, Bool.not_eq_true _ ▸ h, by simp⟩
      · obtain ⟨pre, post, he, hs, hpre⟩ := ih (key x :: seen) v hv2
        simp only [List.contains_cons, Bool.or_eq_false_iff, beq_eq_false_iff_ne] at hs
        refine ⟨x :: pre, post, by rw [he, List.cons_append], hs.2, ?_⟩
        intro u hu
        rcases List.mem_cons.mp hu with rfl | hu2
        · exact fun hk => hs.1 hk.symm
        · exact hpre u hu2

theorem keepFirsts_nodup {α : Type} (key : α → String) :
    ∀ (l : List α) (seen : List String),
      ((keepFirsts key l seen).map key).Nodup ∧
        ∀ v ∈ keepFirsts key l seen, seen.contains (key v) = false := by
  intro l
  induction l with
  | nil => intro seen; simp [keepFirsts]
  | cons x xs ih =>
    intro seen
    simp only [keepFirsts]
    by_cases h : seen.contains (key x) = true
    · rw [if_pos h]
      exact ih seen
    · rw [if_neg h]
      obtain ⟨ihn, ihs⟩ := ih (key x :: seen)
      constructor
      · simp only [List.map_cons, List.nodup_cons]
        refine ⟨?_, ihn⟩
        intro hmem
        obtain ⟨v, hv, hkv⟩ := List.mem_map.mp hmem
        have := ihs v hv
        rw [hkv] at this
        simp at this
      · intro v hv
        rcases List.mem_cons.mp hv with rfl | hv2
        · exact Bool.not_eq_true _ ▸ h
        · have := ihs v hv2
          simp only [List.contains_cons, Bool.or_eq_false_iff] at this
          exact this.2

theorem keepFirsts_cover {α : Type} (key : α → String) :
    ∀ (l : List α) (seen : List String) (x : α), x ∈ l →
      seen.contains (key x) = true ∨
        ∃ v ∈ keepFirsts key l seen, key v = key x := by
  intro l
  induction l with
  | nil => intro seen x hx; simp at hx
  | cons y ys ih =>
    intro seen x hx
    simp only [keepFirsts]
    by_cases h : seen.contains (key y) = true
    · rw [if_pos h]
      rcases List.mem_cons.mp hx with rfl | hx2
      · exact Or.inl h
      · exact ih seen x hx2
    · rw [if_neg h]
      rcases List.mem_cons.mp hx with rfl | hx2
      · exact Or.inr ⟨_, List.mem_cons_self _ _, rfl⟩
      · rcases ih (key y :: seen) x hx2 with hc | ⟨v, hv, hkv⟩
        · simp only [List.contains_cons, Bool.or_eq_true_iff, beq_iff_eq] at hc
          rcases hc with hc1 | hc2
          · exact Or.inr ⟨_, List.mem_cons_self _ _, hc1.symm⟩
          · exact Or.inl hc2
        · exact Or.inr ⟨v, List.mem_cons_of_mem y hv, hkv⟩

theorem mem_keepFirsts_id :
    ∀ (l : List String) (seen : List String) (x : String),
      x ∈ keepFirsts id l seen ↔ x ∈ l ∧ seen.contains x = false := by
  intro l
  induction l with
  | nil => intro seen x; simp [keepFirsts]
  | cons y ys ih =>
    intro seen x
    simp only [keepFirsts, id]
    by_cases h : seen.contains y = true
    · rw [if_pos h, ih seen x, List.mem_cons]
      constructor
      · rintro ⟨hm, hs⟩; exact ⟨Or.inr hm, hs⟩
      · rintro ⟨rfl | hm, hs⟩
        · rw [h] at hs; cases hs
        · exact ⟨hm, hs⟩
    · rw [if_neg h, List.mem_cons, List.mem_cons]
      constructor
      · rintro (rfl | hm)
        · exact ⟨Or.inl rfl, Bool.not_eq_true _ ▸ h⟩
        · rw [ih (y :: seen) x] at hm
          obtain ⟨hm2, hs⟩ := hm
          simp only [List.contains_cons, Bool.or_eq_false_iff] at hs
          exact ⟨Or.inr hm2, hs.2⟩
      · rintro ⟨rfl | hm, hs⟩
        · exact Or.inl rfl
        · by_cases hxy : x = y
          · exact Or.inl hxy
          · right
            rw [ih (y :: seen) x]
            refine ⟨hm, ?_⟩
            simp only [List.contains_cons, Bool.or_eq_false_iff, beq_eq_false_iff_ne]
            exact ⟨fun hc => hxy hc, hs⟩

theorem mem_dedupFirst (l : List String) (x : String) :
    x ∈ dedupFirst l ↔ x ∈ l := by
  rw [dedupFirst, mem_keepFirsts_id]
  simp

theorem dedupFirst_nodup (l : List String) : (dedupFirst l).Nodup := by
  have := (keepFirsts_nodup id l []).1
  simpa using this

/-! ## Character-level lemmas about the string model -/

theorem mem_takeWhileP {p : Char → Bool} :
    ∀ (l : List Char) (c : Char), c ∈ l.takeWhile p → p c = true := by
  intro l
  induction l with
  | nil => intro c hc; simp [List.takeWhile] at hc
  | cons x xs ih =>
    intro c hc
    rw [List.takeWhile] at hc
    rcases h : p x with _ | _
    · rw [h] at hc; simp at hc
    · rw [h] at hc
      rcases List.mem_cons.mp hc with rfl | hc2
      · exact h
      · exact ih c hc2

theorem jsSplit_chars (p : Char → Bool) :
    ∀ (l : List Char) (t : List Char), t ∈ jsSplit p l → ∀ c ∈ t, c ∈ l := by
  intro l
  induction l with
  | nil =>
    intro t ht c hc
    simp only [jsSplit, List.mem_singleton] at ht
    rw [ht] at hc
    simp at hc
  | cons x xs ih =>
    intro t ht c hc
    simp only [jsSplit] at ht
    by_cases hp : p x = true
    · rw [if_pos hp] at ht
      by_cases hh : ((xs.head?).map p).getD false = true
      · rw [if_pos hh] at ht
        exact List.mem_cons_of_mem x (ih t ht c hc)
      · rw [if_neg hh] at ht
        rcases List.mem_cons.mp ht with rfl | ht2
        · simp at hc
        · exact List.mem_cons_of_mem x (ih t ht2 c hc)
    · rw [if_neg hp] at ht
      rcases List.mem_cons.mp ht with rfl | ht2
      · rcases List.mem_cons.mp hc with rfl | hc2
        · exact List.mem_cons_self c xs
        · rcases hr : jsSplit p xs with _ | ⟨u, us⟩
          · rw [hr] at hc2
            simp [List.headD] at hc2
          · rw [hr] at hc2
            simp only [List.headD] at hc2
            have hu : u ∈ jsSplit p xs := by
              rw [hr]
              exact List.mem_cons_self u us
            exact List.mem_cons_of_mem x (ih u hu c hc2)
      · have ht3 : t ∈ jsSplit p xs := by
          rcases hr : jsSplit p xs with _ | ⟨u, us⟩
          · rw [hr] at ht2
            simp at ht2
          · rw [hr] at ht2
            simp only [List.tail_cons] at ht2
            exact List.mem_cons_of_mem u ht2
        exact List.mem_cons_of_mem x (ih t ht3 c hc)

theorem jsSplit_cons (p : Char → Bool) (c : Char) (cs : List Char) :
    jsSplit p (c :: cs) =
      if p c then
        if ((cs.head?).map p).getD false then jsSplit p cs
        else [] :: jsSplit p cs
      else (c :: (jsSplit p cs).headD []) :: (jsSplit p cs).tail := rfl

theorem jsSplit_congr (p q : Char → Bool) :
    ∀ (l : List Char), (∀ c ∈ l, p c = q c) → jsSplit p l = jsSplit q l := by
  intro l
  induction l with
  | nil => intro _; rfl
  | cons x xs ih =>
    intro h
    have hx : p x = q x := h x (List.mem_cons_self x xs)
    have hrest : ∀ c ∈ xs, p c = q c := fun c hc => h c (List.mem_cons_of_mem x hc)
    cases xs with
    | nil => simp [jsSplit, hx]
    | cons d ds =>
      have hd : p d = q d := h d (List.mem_cons_of_mem x (List.mem_cons_self d ds))
      rw [jsSplit_cons p x (d :: ds), jsSplit_cons q x (d :: ds)]
      simp only [List.head?_cons, Option.map_some', Option.getD_some]
      simp only [hx, hd, ih hrest]

theorem joinCharLists_chars (sep : Char) :
    ∀ (parts : List (List Char)) (c : Char), c ∈ joinCharLists sep parts →
      c = sep ∨ ∃ t ∈ parts, c ∈ t := by
  intro parts
  induction parts with
  | nil => intro c hc; simp [joinCharLists] at hc
  | cons x rest ih =>
    intro c hc
    cases rest with
    | nil =>
      simp only [joinCharLists] at hc
      exact Or.inr ⟨x, List.mem_cons_self x _, hc⟩
    | cons y ys =>
      simp only [joinCharLists, List.mem_append, List.mem_cons] at hc
      rcases hc with hc1 | rfl | hc3
      · exact Or.inr ⟨x, List.mem_cons_self x _, hc1⟩
      · exact Or.inl rfl
      · rcases ih c hc3 with h1 | ⟨t, ht, hct⟩
        · exact Or.inl h1
        · exact Or.inr ⟨t, List.mem_cons_of_mem x ht, hct⟩

/-- The lower-case ASCII letters, the only characters `jsToLowerChar` can
introduce. -/
def lowerAZ : List Char :=
  ['a', 'b', 'c', 'd', 'e', 'f', 'g', 'h', 'i', 'j', 'k', 'l', 'm',
   'n', 'o', 'p', 'q', 'r', 's', 't', 'u', 'v', 'w', 'x', 'y', 'z']

theorem jsToLowerChar_shape (c : Char) :
    jsToLowerChar c = c ∨ jsToLowerChar c ∈ lowerAZ := by
  rw [jsToLowerChar]
  by_cases h0 : c = 'A'
  · rw [if_pos h0]; right; decide
  rw [if_neg h0]
  by_cases h1 : c = 'B'
  · rw [if_pos h1]; right; decide
  rw [if_neg h1]
  by_cases h2 : c = 'C'
  · rw [if_pos h2]; right; decide
  rw [if_neg h2]
  by_cases h3 : c = 'D'
  · rw [if_pos h3]; right; decide
  rw [if_neg h3]
  by_cases h4 : c = 'E'
  · rw [if_pos h4]; right; decide
  rw [if_neg h4]
  by_cases h5 : c = 'F'
  · rw [if_pos h5]; right; decide
  rw [if_neg h5]
  by_cases h6 : c = 'G'
  · rw [if_pos h6]; right; decide
  rw [if_neg h6]
  by_cases h7 : c = 'H'
  · rw [if_pos h7]; right; decide
  rw [if_neg h7]
  by_cases h8 : c = 'I'
  · rw [if_pos h8]; right; decide
  rw [if_neg h8]
  by_cases h9 : c = 'J'
  · rw [if_pos h9]; right; decide
  rw [if_neg h9]
  by_cases h10 : c = 'K'
  · rw [if_pos h10]; right; decide
  rw [if_neg h10]
  by_cases h11 : c = 'L'
  · rw [if_pos h11]; right; decide
  rw [if_neg h11]
  by_cases h12 : c = 'M'
  · rw [if_pos h12]; right; decide
  rw [if_neg h12]
  by_cases h13 : c = 'N'
  · rw [if_pos h13]; right; decide
  rw [if_neg h13]
  by_cases h14 : c = 'O'
  · rw [if_pos h14]; right; decide
  rw [if_neg h14]
  by_cases h15 : c = 'P'
  · rw [if_pos h15]; right; decide
  rw [if_neg h15]
  by_cases h16 : c = 'Q'
  · rw [if_pos h16]; right; decide
  rw [if_neg h16]
  by_cases h17 : c = 'R'
  · rw [if_pos h17]; right; decide
  rw [if_neg h17]
  by_cases h18 : c = 'S'
  · rw [if_pos h18]; right; decide
  rw [if_neg h18]
  by_cases h19 : c = 'T'
  · rw [if_pos h19]; right; decide
  rw [if_neg h19]
  by_cases h20 : c = 'U'
  · rw [if_pos h20]; right; decide
  rw [if_neg h20]
  by_cases h21 : c = 'V'
  · rw [if_pos h21]; right; decide
  rw [if_neg h21]
  by_cases h22 : c = 'W'
  · rw [if_pos h22]; right; decide
  rw [if_neg h22]
  by_cases h23 : c = 'X'
  · rw [if_pos h23]; right; decide
  rw [if_neg h23]
  by_cases h24 : c = 'Y'
  · rw [if_pos h24]; right; decide
  rw [if_neg h24]
  by_cases h25 : c = 'Z'
  · rw [if_pos h25]; right; decide
  rw [if_neg h25]
  left
  rfl

theorem jsToLowerChar_not_lower {c d : Char} (hd : d ∉ lowerAZ)
    (h : jsToLowerChar c = d) : c = d := by
  rcases jsToLowerChar_shape c with he | hm
  · rw [← he]; exact h
  · rw [h] at hm; exact absurd hm hd

theorem jsToLowerChar_pipe {c : Char} (h : jsToLowerChar c = '|') : c = '|' :=
  jsToLowerChar_not_lower (by decide) h

theorem jsToLowerChar_slash {c : Char} (h : jsToLowerChar c = '/') : c = '/' :=
  jsToLowerChar_not_lower (by decide) h

theorem jsToLowerChar_comma {c : Char} (h : jsToLowerChar c = ',') : c = ',' :=
  jsToLowerChar_not_lower (by decide) h

/-! ## Lemmas about the forward-fill loop -/

theorem cellOr_some (q : ℚ) (fb : Option ℚ) : cellOr (some q) fb = some q := rfl

theorem cellOr_none (fb : Option ℚ) : cellOr none fb = fb := rfl

/-- The `lastKnown[r]` value after scanning a list of dates: the placed
value at the last date carrying one, else the initial accumulator. -/
def lastObsAcc (placed : String → String → Option ℚ) (r : String) :
    List String → Option ℚ → Option ℚ
  | [], acc => acc
  | d :: ds, acc => lastObsAcc placed r ds (cellOr (placed d r) acc)

theorem fillLoop_map_fst (rs : List String) (placed : String → String → Option ℚ) :
    ∀ (ds : List String) (lk : String → Option ℚ),
      (fillLoop rs placed ds lk).map Prod.fst = ds := by
  intro ds
  induction ds with
  | nil => intro lk; rfl
  | cons d ds ih => intro lk; simp only [fillLoop, List.map_cons, ih]

theorem fillLoop_getElem (rs : List String) (placed : String → String → Option ℚ) :
    ∀ (ds : List String) (lk : String → Option ℚ) (i : ℕ),
      (fillLoop rs placed ds lk)[i]? =
        (ds[i]?).map (fun d =>
          (d, fun r => if rs.contains r then
                cellOr (placed d r) (lastObsAcc placed r (ds.take i) (lk r))
              else placed d r)) := by
  intro ds
  induction ds with
  | nil => intro lk i; simp [fillLoop]
  | cons d ds ih =>
    intro lk i
    cases i with
    | zero => simp [fillLoop, lastObsAcc]
    | succ i =>
      simp only [fillLoop, List.getElem?_cons_succ, List.take_succ_cons]
      rw [ih]
      rcases h : ds[i]? with _ | d'
      · rfl
      · simp only [Option.map_some', Prod.mk.injEq, true_and, Option.some.injEq]
        funext r
        by_cases hc : rs.contains r = true
        · have hm : r ∈ rs := by simpa using hc
          simp [hc, hm, lastObsAcc]
        · have hm : r ∉ rs := by simpa using hc
          simp [hc, hm]

theorem lastObsAcc_all_none (placed : String → String → Option ℚ) (r : String) :
    ∀ (l : List String) (acc : Option ℚ), (∀ d ∈ l, placed d r = none) →
      lastObsAcc placed r l acc = acc := by
  intro l
  induction l with
  | nil => intro acc _; rfl
  | cons d l ih =>
    intro acc h
    have hd : placed d r = none := h d (List.mem_cons_self d l)
    simp only [lastObsAcc, hd, cellOr_none]
    exact ih acc (fun e he => h e (List.mem_cons_of_mem d he))

theorem lastObsAcc_some (placed : String → String → Option ℚ) (r : String) (p : ℚ) :
    ∀ (l : List String) (acc : Option ℚ), lastObsAcc placed r l acc = some p →
      (∃ pre d' post, l = pre ++ d' :: post ∧ placed d' r = some p ∧
        ∀ d'' ∈ post, placed d'' r = none) ∨
      (acc = some p ∧ ∀ d ∈ l, placed d r = none) := by
  intro l
  induction l with
  | nil => intro acc h; exact Or.inr ⟨h, by simp⟩
  | cons d l ih =>
    intro acc h
    simp only [lastObsAcc] at h
    rcases ih _ h with ⟨pre, d', post, he, hp, hpost⟩ | ⟨hacc, hall⟩
    · exact Or.inl ⟨d :: pre, d', post, by rw [he, List.cons_append], hp, hpost⟩
    · rcases hd : placed d r with _ | q
      · rw [hd, cellOr_none] at hacc
        refine Or.inr ⟨hacc, ?_⟩
        intro e he
        rcases List.mem_cons.mp he with rfl | he2
        · exact hd
        · exact hall e he2
      · rw [hd, cellOr_some] at hacc
        have : q = p := Option.some.inj hacc
        rw [this] at hd
        exact Or.inl ⟨[], d, l, rfl, hd, hall⟩

/-! ## Lemmas about the sorted date row list -/

theorem sortedDates_sorted (hs : Histories) : List.Sorted StrLeP (sortedDates hs) :=
  List.sorted_insertionSort _ _

theorem sortedDates_perm (hs : Histories) : List.Perm (sortedDates hs) (dateKeys hs) :=
  List.perm_insertionSort _ _

theorem sortedDates_nodup (hs : Histories) : (sortedDates hs).Nodup :=
  (sortedDates_perm hs).nodup_iff.mpr (dedupFirst_nodup _)

theorem sortedDates_pairwise (hs : Histories) : List.Pairwise StrLtP (sortedDates hs) :=
  (List.Pairwise.and (sortedDates_sorted hs) (sortedDates_nodup hs)).imp
    (fun hab => strLtP_of_leP_ne hab.1 hab.2)

theorem pairwise_take_lt {l : List String} (hp : List.Pairwise StrLtP l) {i : ℕ}
    {d : String} (hi : l[i]? = some d) : ∀ d' ∈ l.take i, StrLtP d' d := by
  intro d' hd'
  rw [List.getElem?_eq_some] at hi
  obtain ⟨hil, hie⟩ := hi
  rw [List.mem_take_iff_getElem] at hd'
  obtain ⟨j, hj, hje⟩ := hd'
  rw [List.pairwise_iff_get] at hp
  have hjl : j < l.length := lt_of_lt_of_le hj (min_le_right _ _)
  have := hp ⟨j, hjl⟩ ⟨i, hil⟩ (by
    simp only [Fin.mk_lt_mk]
    exact lt_of_lt_of_le hj (min_le_left _ _))
  simp only [List.get_eq_getElem] at this
  rw [hje, hie] at this
  exact this

theorem pairwise_mem_take {l : List String} (hp : List.Pairwise StrLtP l) {i : ℕ}
    {d d'' : String} (hi : l[i]? = some d) (hm : d'' ∈ l) (hlt : StrLtP d'' d) :
    d'' ∈ l.take i := by
  rw [List.getElem?_eq_some] at hi
  obtain ⟨hil, hie⟩ := hi
  rw [List.mem_iff_getElem] at hm
  obtain ⟨k, hk, hke⟩ := hm
  rw [List.pairwise_iff_get] at hp
  rcases lt_trichotomy k i with hki | hki | hki
  · rw [List.mem_take_iff_getElem]
    exact ⟨k, lt_min hki hk, hke⟩
  · exfalso
    subst hki
    have hdd : d'' = d := by rw [← hke, ← hie]
    rw [hdd] at hlt
    exact strLtP_irrefl d hlt
  · exfalso
    have := hp ⟨i, hil⟩ ⟨k, hk⟩ (by simp only [Fin.mk_lt_mk]; exact hki)
    simp only [List.get_eq_getElem] at this
    rw [hie, hke] at this
    exact strLtP_asymm hlt this

/-! ## Character content of the identity-key parts -/

theorem storageAt_chars (l : List Char) (m : List Char) (h : storageAt l = some m) :
    ∀ c ∈ m, isDigitChar c = true ∨ isJsSpace c = true ∨
      c ∈ (['g', 't', 'G', 'T', 'b', 'B'] : List Char) := by
  intro c hc
  rw [storageAt] at h
  by_cases hds : digitsOf l = []
  · rw [if_pos hds] at h
    cases h
  · rw [if_neg hds] at h
    rcases ht : tailAfter l with _ | ⟨u, rest⟩
    · rw [ht] at h
      cases h
    · rcases rest with _ | ⟨v, rest2⟩
      · rw [ht] at h
        cases h
      · rw [ht] at h
        dsimp only at h
        by_cases hg : ((u = 'g' || u = 't' || u = 'G' || u = 'T') &&
            (v = 'b' || v = 'B')) = true
        · rw [if_pos hg] at h
          have hm : m = digitsOf l ++ spacesAfter l ++ [u, v] := (Option.some.inj h).symm
          rw [hm] at hc
          simp only [List.mem_append, List.mem_cons, List.mem_singleton] at hc
          rcases hc with (hc1 | hc2) | hc3
          · exact Or.inl (mem_takeWhileP _ c hc1)
          · exact Or.inr (Or.inl (mem_takeWhileP _ c hc2))
          · simp only [Bool.and_eq_true, Bool.or_eq_true, decide_eq_true_eq] at hg
            rcases hc3 with rfl | rfl | hf
            · rcases hg.1 with ((rfl | rfl) | rfl) | rfl <;> simp
            · rcases hg.2 with rfl | rfl <;> simp
            · simp at hf
        · rw [if_neg hg] at h
          cases h

theorem findStorage_chars :
    ∀ (l : List Char) (m : List Char), findStorage l = some m →
      ∀ c ∈ m, isDigitChar c = true ∨ isJsSpace c = true ∨
        c ∈ (['g', 't', 'G', 'T', 'b', 'B'] : List Char) := by
  intro l
  induction l with
  | nil => intro m h; cases h
  | cons x xs ih =>
    intro m h
    rw [findStorage] at h
    rcases ha : storageAt (x :: xs) with _ | m'
    · rw [ha] at h
      exact ih m h
    · rw [ha] at h
      have : m' = m := Option.some.inj h
      rw [this] at ha
      exact storageAt_chars _ _ ha

theorem idTokens_chars (name : String) (t : String) (ht : t ∈ idTokens name) :
    ∀ c ∈ t.data, c ∈ (jsToLowerStr name).data := by
  rw [idTokens, splitTokens] at ht
  obtain ⟨cs, hcs, he⟩ := List.mem_map.mp ht
  intro c hc
  rw [← he] at hc
  exact jsSplit_chars _ _ _ hcs c hc

theorem mem_jsToLower_data {name : String} {c : Char}
    (hc : c ∈ (jsToLowerStr name).data) : ∃ c0 ∈ name.data, jsToLowerChar c0 = c := by
  rw [jsToLowerStr] at hc
  simp only [jsToLowerList] at hc
  obtain ⟨c0, hc0, he⟩ := List.mem_map.mp hc
  exact ⟨c0, hc0, he⟩

/-! ## Claim theorems -/

/-- C4: for every listing whose model field is non-empty after trimming,
the identity key is exactly the model code lower-cased and trimmed (the
name-based heuristics are bypassed), and any listing sharing the same
model field receives the same identity key regardless of retailer or
name. -/
theorem model_key_authoritative (p : Listing) (h : jsTrimList p.model.data ≠ []) :
    getProductIdentityKey p = ⟨jsTrimList (jsToLowerList p.model.data)⟩ ∧
    ∀ q : Listing, q.model = p.model →
      getProductIdentityKey q = getProductIdentityKey p := by
  constructor
  · rw [getProductIdentityKey, if_pos h]
  · intro q hq
    rw [getProductIdentityKey, getProductIdentityKey, hq]
    simp only [if_pos h]

/-- C4 witness: two listings from different retailers with different
names but the identical model code `" AB-12 "` both get key `"ab-12"`. -/
theorem model_key_authoritative_witness :
    getProductIdentityKey ⟨"A", "Widget Pro", "", " AB-12 ", 10, ""⟩ = "ab-12" ∧
    getProductIdentityKey ⟨"B", "Completely Different", "", " AB-12 ", 12, ""⟩ =
      getProductIdentityKey ⟨"A", "Widget Pro", "", " AB-12 ", 10, ""⟩ := by
  have h := model_key_authoritative ⟨"A", "Widget Pro", "", " AB-12 ", 10, ""⟩ (by decide)
  refine ⟨?_, h.2 ⟨"B", "Completely Different", "", " AB-12 ", 12, ""⟩ (by decide)⟩
  rw [h.1]
  decide

/-- C5: `resolve` (the dedup loop) returns a subsequence of its input
(hence in input order), with pairwise-distinct identity keys, covering
every key occurring in the input, and every returned variant is the
first listing of the input carrying its key. -/
theorem resolve_dedup_spec (l : List Listing) :
    (resolveListings l).Sublist l ∧
    ((resolveListings l).map getProductIdentityKey).Nodup ∧
    (∀ x ∈ l, ∃ v ∈ resolveListings l,
      getProductIdentityKey v = getProductIdentityKey x) ∧
    (∀ v ∈ resolveListings l, ∃ pre post, l = pre ++ v :: post ∧
      ∀ u ∈ pre, getProductIdentityKey u ≠ getProductIdentityKey v) := by
  refine ⟨keepFirsts_sublist _ l [], (keepFirsts_nodup _ l []).1, ?_, ?_⟩
  · intro x hx
    rcases keepFirsts_cover getProductIdentityKey l [] x hx with hc | h
    · simp at hc
    · exact h
  · intro v hv
    obtain ⟨pre, post, he, -, hpre⟩ := keepFirsts_first getProductIdentityKey l [] v hv
    exact ⟨pre, post, he, hpre⟩

/-- C5 witness: on a concrete three-listing input with two distinct
keys, the dedup keeps the first listing of each key, and the coverage
conjunct applies to the shadowed duplicate. -/
theorem resolve_dedup_spec_witness :
    resolveListings
      [⟨"A", "Widget Pro 256GB", "", "", 10, ""⟩,
       ⟨"B", "Widget Pro 256GB Black", "", "", 12, ""⟩,
       ⟨"C", "Widget 256GB", "", "", 9, ""⟩] =
      [⟨"A", "Widget Pro 256GB", "", "", 10, ""⟩,
       ⟨"C", "Widget 256GB", "", "", 9, ""⟩] ∧
    ∃ v ∈ resolveListings
      [⟨"A", "Widget Pro 256GB", "", "", 10, ""⟩,
       ⟨"B", "Widget Pro 256GB Black", "", "", 12, ""⟩,
       ⟨"C", "Widget 256GB", "", "", 9, ""⟩],
      getProductIdentityKey v =
        getProductIdentityKey ⟨"B", "Widget Pro 256GB Black", "", "", 12, ""⟩ := by
  constructor
  · decide
  · exact (resolve_dedup_spec _).2.2.1 _ (by decide)

/-- C7: `resolve` never drops a key: every input listing, however
degenerate its fields, is represented in the output by some listing with
the same identity key; and a listing with empty name and empty model
still gets a key, namely the empty string. -/
theorem resolve_drops_nothing :
    (∀ (l : List Listing) (x : Listing), x ∈ l →
      ∃ v ∈ resolveListings l, getProductIdentityKey v = getProductIdentityKey x) ∧
    (∀ p : Listing, p.name = "" → p.model = "" → getProductIdentityKey p = "") := by
  constructor
  · intro l x hx
    rcases keepFirsts_cover getProductIdentityKey l [] x hx with hc | h
    · simp at hc
    · exact h
  · intro p h1 h2
    rw [getProductIdentityKey, h1, h2]
    decide

/-- C7 witness: an empty-name, empty-model listing keeps key `""` and is
still represented in the resolver output of a list containing it. -/
theorem resolve_drops_nothing_witness :
    getProductIdentityKey ⟨"A", "", "", "", 5, ""⟩ = "" ∧
    ∃ v ∈ resolveListings
      [⟨"Z", "Widget", "", "", 1, ""⟩, ⟨"A", "", "", "", 5, ""⟩],
      getProductIdentityKey v = getProductIdentityKey ⟨"A", "", "", "", 5, ""⟩ := by
  refine ⟨resolve_drops_nothing.2 ⟨"A", "", "", "", 5, ""⟩ rfl rfl, ?_⟩
  exact resolve_drops_nothing.1 _ _ (by decide)

/-- C2 counterexample: a chosen variant with empty model AND an empty
key-word set (here the empty name) is rejected by its own strategy-2
filter — the similarity is `0/max(0,0)` (`NaN` in JS, `0` here), which
fails the `>= 0.4` test — so `match(chosen, [chosen])` is empty and does
NOT contain `chosen`. -/
theorem match_drops_empty_chosen :
    matchRetailers ⟨"A", "", "", "", 10, ""⟩ [⟨"A", "", "", "", 10, ""⟩] = [] := by
  have hs1 : strategyOne ⟨"A", "", "", "", 10, ""⟩ [⟨"A", "", "", "", 10, ""⟩] = [] := by
    rw [strategyOne, if_pos]
    decide
  rw [matchRetailers, if_pos hs1]
  have hsim : similarity "" "" = 0 := by
    have h1 : interWords "" "" = [] := by decide
    have h2 : extractKeyWords "" = [] := by decide
    rw [similarity, h1, h2]
    norm_num
  have hfa : fuzzyAccept ⟨"A", "", "", "", 10, ""⟩ ⟨"A", "", "", "", 10, ""⟩ = false := by
    rw [fuzzyAccept, if_neg (by simp), if_neg (by decide)]
    apply decide_eq_false
    rw [hsim]
    norm_num
  simp [List.filter, hfa]

/-- C2 (amended): `match(chosen, allListings)` contains `chosen`
whenever `chosen` is in `allListings` AND `chosen` is non-degenerate:
its model code is non-empty after trimming (strategy 1 keeps it), or its
key-word set is non-empty (strategy 2 accepts it with similarity 1).
The unamended claim fails only for a chosen variant with empty model
and empty key-word set, whose self-similarity `0/0` fails the 0.4 test. -/
theorem match_contains_chosen (v : Listing) (all : List Listing) (hv : v ∈ all)
    (h : jsTrimList v.model.data ≠ [] ∨ extractKeyWords v.name ≠ []) :
    v ∈ matchRetailers v all := by
  by_cases hm : jsTrimList v.model.data = []
  · have hkw : extractKeyWords v.name ≠ [] := by
      rcases h with h1 | h2
      · exact absurd hm h1
      · exact h2
    have hs1 : strategyOne v all = [] := by rw [strategyOne, if_pos hm]
    rw [matchRetailers, if_pos hs1]
    refine List.mem_filter.mpr ⟨hv, ?_⟩
    rw [fuzzyAccept, if_neg (by simp), if_neg ?hsig]
    case hsig =>
      have hmw : missingWords v.name v.name = [] := by
        rw [missingWords]
        apply List.filter_eq_nil_iff.mpr
        intro w hw
        simp only [decide_eq_true_eq, not_not]
        exact hw
      simp [significantMissing, hmw]
    apply decide_eq_true
    have hiw : interWords v.name v.name = extractKeyWords v.name := by
      rw [interWords]
      apply List.filter_eq_self.mpr
      intro w hw
      exact decide_eq_true hw
    have hn : (extractKeyWords v.name).length ≠ 0 := by
      simpa [List.length_eq_zero] using hkw
    rw [similarity, hiw, max_self, ge_iff_le, div_self (by exact_mod_cast hn)]
    norm_num
  · have hs1v : v ∈ strategyOne v all := by
      rw [strategyOne, if_neg hm]
      exact List.mem_filter.mpr ⟨hv, decide_eq_true ⟨hm, rfl⟩⟩
    have hs1 : strategyOne v all ≠ [] := List.ne_nil_of_mem hs1v
    rw [matchRetailers, if_neg hs1]
    exact hs1v

/-- C2 witness: a model-bearing chosen variant and a model-free but
named chosen variant are both returned by `match` over lists containing
them. -/
theorem match_contains_chosen_witness :
    ⟨"A", "Widget", "", "M9", 10, ""⟩ ∈
      matchRetailers ⟨"A", "Widget", "", "M9", 10, ""⟩
        [⟨"B", "Other", "", "", 3, ""⟩, ⟨"A", "Widget", "", "M9", 10, ""⟩] ∧
    ⟨"A", "Gadget 256GB", "", "", 10, ""⟩ ∈
      matchRetailers ⟨"A", "Gadget 256GB", "", "", 10, ""⟩
        [⟨"A", "Gadget 256GB", "", "", 10, ""⟩] := by
  constructor
  · exact match_contains_chosen _ _ (by decide) (Or.inl (by decide))
  · exact match_contains_chosen _ _ (by decide) (Or.inr (by decide))

/-- C3: once the two hard filters pass (equal tier strings, no
significant missing key word), strategy-2 acceptance holds exactly when
the similarity — intersection size over the larger key-word-set size —
reaches 0.4; in particular similarity exactly 2/5 is accepted and
similarity 399/1000 is rejected. -/
theorem fuzzy_threshold (v p : Listing)
    (h1 : tierStrOf v.name = tierStrOf p.name)
    (h2 : significantMissing v.name p.name = []) :
    (fuzzyAccept v p = true ↔ similarity v.name p.name ≥ 2/5) ∧
    (similarity v.name p.name = 2/5 → fuzzyAccept v p = true) ∧
    (similarity v.name p.name = 399/1000 → fuzzyAccept v p = false) := by
  rw [fuzzyAccept, if_neg (by simp [h1]), if_neg (by simp [h2])]
  refine ⟨by simp, ?_, ?_⟩
  · intro he
    apply decide_eq_true
    rw [he]
  · intro he
    apply decide_eq_false
    rw [he]
    norm_num

/-- C3 witness: concrete names with key-word sets of sizes 2 and 5 and
intersection size 2 — similarity exactly 2/5 — pass the hard filters and
are accepted. -/
theorem fuzzy_threshold_witness :
    fuzzyAccept ⟨"A", "abcd wxyz", "", "", 10, ""⟩
      ⟨"B", "abcd wxyz ee ff gg", "", "", 12, ""⟩ = true := by
  have h := fuzzy_threshold ⟨"A", "abcd wxyz", "", "", 10, ""⟩
    ⟨"B", "abcd wxyz ee ff gg", "", "", 12, ""⟩ (by decide) (by decide)
  apply h.2.1
  show similarity "abcd wxyz" "abcd wxyz ee ff gg" = 2/5
  have h1 : interWords "abcd wxyz" "abcd wxyz ee ff gg" = ["abcd", "wxyz"] := by decide
  have h2 : extractKeyWords "abcd wxyz" = ["abcd", "wxyz"] := by decide
  have h3 : extractKeyWords "abcd wxyz ee ff gg" =
      ["abcd", "wxyz", "ee", "ff", "gg"] := by decide
  rw [similarity, h1, h2, h3]
  norm_num

/-- C1 counterexample: the two tier vocabularies differ — strategy 2
also counts `standard` (and `basic`) as tier words — so on the name
`"Galaxy Standard"` the strategy-2 tier-token set contains `standard`
while the identity resolver's does not: the two tier-extraction
functions are not equal. -/
theorem tier_vocab_counterexample :
    "standard" ∈ extractTierWords "Galaxy Standard" ∧
    "standard" ∉ idTierTokens "Galaxy Standard" := by decide

/-- C1 (amended): the strategy-2 tier extractor and the identity
resolver's tier filter compute the same tier-token set on every name
that avoids the points where the embedded functions differ: names with
no `/` or `,` character (the identity tokeniser also splits on those)
and no `standard`/`basic` token (present only in strategy 2's
vocabulary). The unamended claim fails on either difference. -/
theorem tier_extraction_agree (name : String)
    (h1 : '/' ∉ name.data) (h2 : ',' ∉ name.data)
    (h3 : "standard" ∉ splitTokens isSepS2 (jsToLowerStr name))
    (h4 : "basic" ∉ splitTokens isSepS2 (jsToLowerStr name)) :
    ∀ w, w ∈ idTierTokens name ↔ w ∈ extractTierWords name := by
  have htok : idTokens name = splitTokens isSepS2 (jsToLowerStr name) := by
    rw [idTokens, splitTokens, splitTokens]
    congr 1
    apply jsSplit_congr
    intro c hc
    obtain ⟨c0, hc0, hlc⟩ := mem_jsToLower_data hc
    have hcs : c ≠ '/' := by
      intro he
      rw [he] at hlc
      exact h1 (jsToLowerChar_slash hlc ▸ hc0)
    have hcc : c ≠ ',' := by
      intro he
      rw [he] at hlc
      exact h2 (jsToLowerChar_comma hlc ▸ hc0)
    simp [isSepId, isSepS2, hcs, hcc]
  intro w
  rw [idTierTokens, htok, extractTierWords, mem_dedupFirst]
  constructor
  · intro hw
    obtain ⟨hwt, hwp⟩ := List.mem_filter.mp hw
    refine List.mem_filter.mpr ⟨hwt, decide_eq_true ?_⟩
    have hin : w ∈ TIER_WORDS_ID := of_decide_eq_true hwp
    have hsub : ∀ x ∈ TIER_WORDS_ID, x ∈ TIER_WORDS_S2 := by decide
    exact hsub w hin
  · intro hw
    obtain ⟨hwt, hwp⟩ := List.mem_filter.mp hw
    have hw2 : w ∈ TIER_WORDS_S2 := of_decide_eq_true hwp
    refine List.mem_filter.mpr ⟨hwt, decide_eq_true ?_⟩
    have hws : w ≠ "standard" := fun he => h3 (he ▸ hwt)
    have hwb : w ≠ "basic" := fun he => h4 (he ▸ hwt)
    simp only [TIER_WORDS_S2, List.mem_cons, List.not_mem_nil, or_false] at hw2
    rcases hw2 with rfl | rfl | rfl | rfl | rfl | rfl | rfl | rfl | rfl | rfl
    · decide
    · decide
    · decide
    · decide
    · decide
    · decide
    · decide
    · decide
    · exact absurd rfl hws
    · exact absurd rfl hwb

/-- C1 witness: on `"Galaxy Ultra Pro 256GB"` the hypotheses hold and
the two extractors agree on the token `"pro"`. -/
theorem tier_extraction_agree_witness :
    "pro" ∈ idTierTokens "Galaxy Ultra Pro 256GB" ↔
      "pro" ∈ extractTierWords "Galaxy Ultra Pro 256GB" :=
  tier_extraction_agree "Galaxy Ultra Pro 256GB"
    (by decide) (by decide) (by decide) (by decide) "pro"

/-- C6 counterexample: the `|` delimiter CAN occur inside a key part —
`|` is not a tokenisation separator, so a name containing it flows it
into a core token: on the name `"ab|cd"` the core part is `"ab|cd"`
itself. -/
theorem key_delimiter_counterexample : '|' ∈ (corePartOf "ab|cd").data := by decide

/-- C6 (amended): the tier part and the storage part of a name-derived
identity key never contain the `|` delimiter, for every input name; the
core part contains no `|` provided the name itself contains none (the
unamended claim fails exactly on names already containing `|`, whose
core tokens keep it). -/
theorem key_parts_no_delimiter (name : String) :
    ('|' ∉ (tierPartOf name).data ∧ '|' ∉ (storagePartOf name).data) ∧
    ('|' ∉ name.data → '|' ∉ (corePartOf name).data) := by
  refine ⟨⟨?_, ?_⟩, ?_⟩
  · intro hmem
    rw [tierPartOf, joinWith] at hmem
    rcases joinCharLists_chars '-' _ _ hmem with he | ⟨t, ht, hct⟩
    · cases he
    · obtain ⟨s, hs, hst⟩ := List.mem_map.mp ht
      have hs2 : s ∈ idTierTokens name := (sortStrings_perm _).mem_iff.mp hs
      have hsp : s ∈ TIER_WORDS_ID :=
        of_decide_eq_true (List.mem_filter.mp hs2).2
      rw [← hst] at hct
      simp only [TIER_WORDS_ID, List.mem_cons, List.not_mem_nil, or_false] at hsp
      rcases hsp with rfl | rfl | rfl | rfl | rfl | rfl | rfl | rfl <;> simp_all
  · intro hmem
    rw [storagePartOf] at hmem
    rcases hf : findStorage (jsToLowerStr name).data with _ | m
    · rw [hf] at hmem
      simp at hmem
    · rw [hf] at hmem
      have hmf : '|' ∈ m.filter (fun c => !(isJsSpace c)) := hmem
      obtain ⟨hin, -⟩ := List.mem_filter.mp hmf
      rcases findStorage_chars _ _ hf '|' hin with hd | hsp | hgt
      · exact absurd hd (by decide)
      · exact absurd hsp (by decide)
      · exact absurd hgt (by decide)
  · intro hname hmem
    rw [corePartOf, joinWith] at hmem
    rcases joinCharLists_chars '-' _ _ hmem with he | ⟨t, ht, hct⟩
    · cases he
    · obtain ⟨s, hs, hst⟩ := List.mem_map.mp ht
      have hs2 : s ∈ (idTokens name).filter isCoreWord :=
        List.Sublist.mem hs (List.take_sublist _ _)
      have hs3 : s ∈ idTokens name := (List.mem_filter.mp hs2).1
      rw [← hst] at hct
      have hc2 : '|' ∈ (jsToLowerStr name).data := idTokens_chars name s hs3 '|' hct
      obtain ⟨c0, hc0, hlc⟩ := mem_jsToLower_data hc2
      exact hname (jsToLowerChar_pipe hlc ▸ hc0)

/-- C6 witness: on a delimiter-free realistic name all three parts are
delimiter-free. -/
theorem key_parts_no_delimiter_witness :
    '|' ∉ (tierPartOf "iPhone 17 Pro 256GB").data ∧
    '|' ∉ (storagePartOf "iPhone 17 Pro 256GB").data ∧
    '|' ∉ (corePartOf "iPhone 17 Pro 256GB").data := by
  have h := key_parts_no_delimiter "iPhone 17 Pro 256GB"
  exact ⟨h.1.1, h.1.2, h.2 (by decide)⟩

/-- The merged table row by row: row `i` carries the `i`-th sorted date,
and each retailer cell holds the placed observation for that date when
there is one, else the last observation over the earlier rows. -/
theorem merge_getElem (hs : Histories) (i : ℕ) :
    (mergeHistories hs)[i]? = ((sortedDates hs)[i]?).map (fun d =>
      (d, fun r => if (hs.map (fun rh => rh.1)).contains r then
            cellOr (placedCell hs d r)
              (lastObsAcc (placedCell hs) r ((sortedDates hs).take i) none)
          else placedCell hs d r)) :=
  fillLoop_getElem _ _ _ _ i

/-- C8: forward-fill is causal. If a merged cell holds a price that was
not an actual observation at that row's date, then it is the retailer's
most recent observation from a STRICTLY earlier date (every observable
date strictly between carries no observation for that retailer); and a
retailer with no observation strictly before the row's date keeps a
missing cell — nothing is fabricated. -/
theorem forward_fill_causal (hs : Histories) (i : ℕ) (d r : String)
    (h1 : (mergeHistories hs)[i]?.map Prod.fst = some d) :
    (∀ p : ℚ, (mergeHistories hs)[i]?.map (fun dr => dr.2 r) = some (some p) →
      placedCell hs d r = none →
      ∃ d', d' ∈ sortedDates hs ∧ StrLtP d' d ∧ placedCell hs d' r = some p ∧
        ∀ d'' ∈ sortedDates hs, StrLtP d' d'' → StrLtP d'' d →
          placedCell hs d'' r = none) ∧
    (placedCell hs d r = none →
      (∀ d'' ∈ sortedDates hs, StrLtP d'' d → placedCell hs d'' r = none) →
      (mergeHistories hs)[i]?.map (fun dr => dr.2 r) = some none) := by
  have hds : (sortedDates hs)[i]? = some d := by
    rw [merge_getElem] at h1
    rcases hx : (sortedDates hs)[i]? with _ | d0
    · rw [hx] at h1
      cases h1
    · rw [hx] at h1
      simp only [Option.map_some', Option.some.injEq] at h1
      rw [h1]
  constructor
  · intro p hcell hplaced
    rw [merge_getElem, hds] at hcell
    simp only [Option.map_some', Option.some.injEq] at hcell
    by_cases hc : (hs.map (fun rh => rh.1)).contains r = true
    · rw [if_pos hc, hplaced, cellOr_none] at hcell
      rcases lastObsAcc_some _ _ _ _ _ hcell with
        ⟨pre, d', post, he, hp', hpost⟩ | ⟨habs, -⟩
      · have hdmem : d' ∈ (sortedDates hs).take i := by
          rw [he]
          simp
        have hpw := sortedDates_pairwise hs
        have hlt : StrLtP d' d := pairwise_take_lt hpw hds d' hdmem
        have hmem : d' ∈ sortedDates hs :=
          List.Sublist.mem hdmem (List.take_sublist _ _)
        refine ⟨d', hmem, hlt, hp', ?_⟩
        intro d'' hdm2 hltA hltB
        have hd''take : d'' ∈ (sortedDates hs).take i :=
          pairwise_mem_take hpw hds hdm2 hltB
        rw [he] at hd''take
        rcases List.mem_append.mp hd''take with hpre2 | hcons
        · exfalso
          have hpwt : List.Pairwise StrLtP ((sortedDates hs).take i) :=
            List.Pairwise.sublist (List.take_sublist _ _) hpw
          rw [he, List.pairwise_append] at hpwt
          have := hpwt.2.2 d'' hpre2 d' (by simp)
          exact strLtP_asymm this hltA
        · rcases List.mem_cons.mp hcons with rfl | hpost2
          · exact absurd hltA (strLtP_irrefl d'')
          · exact hpost d'' hpost2
      · cases habs
    · rw [if_neg hc] at hcell
      rw [hplaced] at hcell
      cases hcell
  · intro hplaced hall
    rw [merge_getElem, hds]
    simp only [Option.map_some', Option.some.injEq]
    by_cases hc : (hs.map (fun rh => rh.1)).contains r = true
    · rw [if_pos hc, hplaced, cellOr_none]
      apply lastObsAcc_all_none
      intro d'' hd''
      have hlt := pairwise_take_lt (sortedDates_pairwise hs) hds d'' hd''
      have hmem : d'' ∈ sortedDates hs :=
        List.Sublist.mem hd'' (List.take_sublist _ _)
      exact hall d'' hmem hlt
    · rw [if_neg hc]
      exact hplaced

/-- C8 witness: the spec's own scenario — retailer A observed on the 1st
and 3rd, B on the 2nd. A's filled cell on the 2nd comes from the
strictly earlier 1st; B's cell on the 1st, with no earlier observation,
stays missing. -/
theorem forward_fill_causal_witness :
    (∃ d', d' ∈ sortedDates
        ([("A", [("2024-01-01T00:00:00", (100 : ℚ)), ("2024-01-03T00:00:00", 110)]),
          ("B", [("2024-01-02T00:00:00", 90)])] : Histories) ∧
      StrLtP d' "2024-01-02" ∧
      placedCell ([("A", [("2024-01-01T00:00:00", (100 : ℚ)), ("2024-01-03T00:00:00", 110)]),
          ("B", [("2024-01-02T00:00:00", 90)])] : Histories) d' "A" = some 100 ∧
      ∀ d'' ∈ sortedDates
        ([("A", [("2024-01-01T00:00:00", (100 : ℚ)), ("2024-01-03T00:00:00", 110)]),
          ("B", [("2024-01-02T00:00:00", 90)])] : Histories),
        StrLtP d' d'' → StrLtP d'' "2024-01-02" →
          placedCell ([("A", [("2024-01-01T00:00:00", (100 : ℚ)), ("2024-01-03T00:00:00", 110)]),
            ("B", [("2024-01-02T00:00:00", 90)])] : Histories) d'' "A" = none) ∧
    (mergeHistories
        ([("A", [("2024-01-01T00:00:00", (100 : ℚ)), ("2024-01-03T00:00:00", 110)]),
          ("B", [("2024-01-02T00:00:00", 90)])] : Histories))[0]?.map
      (fun dr => dr.2 "B") = some none := by
  constructor
  · exact (forward_fill_causal _ 1 "2024-01-02" "A" (by rfl)).1 100 (by rfl) (by rfl)
  · exact (forward_fill_causal _ 0 "2024-01-01" "B" (by rfl)).2 (by rfl)
      (by intro d'' hmem hlt; revert hlt hmem; revert d''; decide)

/-- C9: on dense input — every retailer of the map has exactly one
observation on every date of the union — `merge` changes nothing: the
output has one row per distinct date, dates ascending (sorted and
duplicate-free), and every cell equals that retailer's placed
observation for its row's date. -/
theorem merge_idempotent_dense (hs : Histories)
    (hdense : ∀ r ∈ hs.map (fun rh => rh.1), ∀ d ∈ dateKeys hs,
      (writesFor hs d r).length = 1) :
    (mergeHistories hs).map Prod.fst = sortedDates hs ∧
    List.Sorted StrLeP (sortedDates hs) ∧ (sortedDates hs).Nodup ∧
    ∀ (i : ℕ) (r : String), (mergeHistories hs)[i]?.map (fun dr => dr.2 r) =
      ((sortedDates hs)[i]?).map (fun d => placedCell hs d r) := by
  refine ⟨fillLoop_map_fst _ _ _ _, sortedDates_sorted hs, sortedDates_nodup hs, ?_⟩
  intro i r
  rw [merge_getElem]
  rcases hx : (sortedDates hs)[i]? with _ | d
  · rfl
  · simp only [Option.map_some', Option.some.injEq]
    by_cases hc : (hs.map (fun rh => rh.1)).contains r = true
    · rw [if_pos hc]
      have hrm : r ∈ hs.map (fun rh => rh.1) := by simpa using hc
      have hdm : d ∈ dateKeys hs := by
        rw [List.getElem?_eq_some] at hx
        obtain ⟨hil, hie⟩ := hx
        have : d ∈ sortedDates hs := hie ▸ List.getElem_mem hil
        exact (sortedDates_perm hs).mem_iff.mp this
      obtain ⟨w, hw⟩ := List.length_eq_one.mp (hdense r hrm d hdm)
      have hpl : placedCell hs d r = some w.2.2 := by
        rw [placedCell, hw]
        rfl
      rw [hpl, cellOr_some]
    · rw [if_neg hc]

/-- C9 witness: a dense two-retailer, two-date history map merges to the
unchanged table: the rows are exactly the sorted dates and B's first
cell is its own observation. -/
theorem merge_idempotent_dense_witness :
    (mergeHistories
        ([("A", [("2024-01-01", (100 : ℚ)), ("2024-01-02", 110)]),
          ("B", [("2024-01-01", (90 : ℚ)), ("2024-01-02", 95)])] : Histories)).map
      Prod.fst = sortedDates
        ([("A", [("2024-01-01", (100 : ℚ)), ("2024-01-02", 110)]),
          ("B", [("2024-01-01", (90 : ℚ)), ("2024-01-02", 95)])] : Histories) ∧
    (mergeHistories
        ([("A", [("2024-01-01", (100 : ℚ)), ("2024-01-02", 110)]),
          ("B", [("2024-01-01", (90 : ℚ)), ("2024-01-02", 95)])] : Histories))[0]?.map
      (fun dr => dr.2 "B") =
      ((sortedDates
        ([("A", [("2024-01-01", (100 : ℚ)), ("2024-01-02", 110)]),
          ("B", [("2024-01-01", (90 : ℚ)), ("2024-01-02", 95)])] : Histories))[0]?).map
      (fun d => placedCell
        ([("A", [("2024-01-01", (100 : ℚ)), ("2024-01-02", 110)]),
          ("B", [("2024-01-01", (90 : ℚ)), ("2024-01-02", 95)])] : Histories) d "B") := by
  have h := merge_idempotent_dense
    ([("A", [("2024-01-01", (100 : ℚ)), ("2024-01-02", 110)]),
      ("B", [("2024-01-01", (90 : ℚ)), ("2024-01-02", 95)])] : Histories) (by decide)
  exact ⟨h.1, h.2.2.2 0 "B"⟩

/-- C10: the fill pass writes only to missing cells. A cell at whose
date the retailer has an actual observation holds that observation —
the LAST one placed for the date when several share it — and is never
overwritten by an earlier price. -/
theorem fill_preserves_observations (hs : Histories) (i : ℕ) (d r : String) (p : ℚ)
    (h1 : (mergeHistories hs)[i]?.map Prod.fst = some d)
    (h2 : (writesFor hs d r).getLast?.map (fun w => w.2.2) = some p) :
    (mergeHistories hs)[i]?.map (fun dr => dr.2 r) = some (some p) := by
  have hds : (sortedDates hs)[i]? = some d := by
    rw [merge_getElem] at h1
    rcases hx : (sortedDates hs)[i]? with _ | d0
    · rw [hx] at h1
      cases h1
    · rw [hx] at h1
      simp only [Option.map_some', Option.some.injEq] at h1
      rw [h1]
  have hp : placedCell hs d r = some p := h2
  rw [merge_getElem, hds]
  simp only [Option.map_some', Option.some.injEq]
  by_cases hc : (hs.map (fun rh => rh.1)).contains r = true
  · rw [if_pos hc, hp, cellOr_some]
  · rw [if_neg hc]
    exact hp

/-- C10 witness: two same-day observations for retailer A (morning 100,
evening 120): the merged cell for that day holds the last one, 120. -/
theorem fill_preserves_observations_witness :
    (mergeHistories
        ([("A", [("2024-01-01T09:00:00", (100 : ℚ)),
                 ("2024-01-01T17:00:00", 120)])] : Histories))[0]?.map
      (fun dr => dr.2 "A") = some (some 120) :=
  fill_preserves_observations _ 0 "2024-01-01" "A" 120 (by rfl) (by rfl)
